import Mathlib

/-!
Shallow embedding of `run_flexible_cohort_analysis` from src/main-code.py.

A pandas DataFrame is modelled as an ordered list of column names together
with a list of rows; a row is an association list from column name to value,
and a cell that is absent from a row models a missing value (NaN).  The
pipeline is the composition tag -> concat -> sort -> week index -> project,
with the two error exits of the source (the empty-input early return of
line 32 and the KeyError that `sort_values` raises when a by-column is
absent from the combined frame).
-/

/-- A cell value: the source stores dates, numbers and strings in cells. -/
inductive Val where
  | vInt : Int → Val
  | vStr : String → Val
deriving DecidableEq

/-- Total order on values, used by `sort_values` and `sorted`.  Within a
column values are homogeneous; across kinds the order is fixed arbitrarily
but totally. -/
def Val.le : Val → Val → Bool
  | .vInt a, .vInt b => decide (a ≤ b)
  | .vInt _, .vStr _ => true
  | .vStr _, .vInt _ => false
  | .vStr a, .vStr b => decide (a ≤ b)

/-- Order on possibly missing cells: a missing value sorts last, matching
the default na_position of `sort_values`. -/
def cellLe : Option Val → Option Val → Bool
  | none, none => true
  | some _, none => true
  | none, some _ => false
  | some a, some b => a.le b

/-- A row of a table: an association list from column name to value.  A
column that the row has no entry for models a missing cell (NaN). -/
abbrev Row : Type := List (String × Val)

/-- Reading the cell of a row at a column name; the first entry wins. -/
def getCell : Row → String → Option Val
  | [], _ => none
  | (c, v) :: r, d => if c = d then some v else getCell r d

/-- Writing a cell of a row (pandas column assignment applied to one row):
any previous entry for the column is removed and the new value appended. -/
def keyNe (c : String) : String × Val → Bool := fun p => !decide (p.1 = c)

def setCell (r : Row) (c : String) (v : Val) : Row :=
  (List.filter (keyNe c) r) ++ [(c, v)]

/-- Dropping the cell of a row at one column. -/
def dropCell (r : Row) (c : String) : Row :=
  List.filter (keyNe c) r

/-- A pandas DataFrame: an ordered list of column names and the rows. -/
structure DataFrame where
  cols : List String
  rows : List Row
deriving DecidableEq

/-- The frame every row of which lies inside its declared columns. -/
def DataFrame.WF (df : DataFrame) : Prop :=
  ∀ r ∈ df.rows, ∀ p ∈ r, p.1 ∈ df.cols

instance (df : DataFrame) : Decidable df.WF := by
  unfold DataFrame.WF
  infer_instance

def emptyFrame : DataFrame := ⟨[], []⟩

/-- Column assignment with a scalar, `df[c] = v` (line 27 of the source):
every row gets the value, a pre-existing column keeps its position, a new
column is appended at the end. -/
def setCol (df : DataFrame) (c : String) (v : Val) : DataFrame :=
  { cols := if c ∈ df.cols then df.cols else df.cols ++ [c],
    rows := df.rows.map (fun r => setCell r c v) }

/-- The tagging loop of lines 21 to 29: each dataset is copied and its OS
column is set to the label that keys it in the mapping. -/
def tagged (dfs : List (String × DataFrame)) : List DataFrame :=
  dfs.map (fun p => setCol p.2 "OS" (Val.vStr p.1))

/-- Column set of `pd.concat` (line 35): union of the input column lists
in order of first appearance. -/
def unionCols : List DataFrame → List String
  | [] => []
  | df :: dfs => df.cols ++ (unionCols dfs).filter (fun c => decide (c ∉ df.cols))

/-- Row list of `pd.concat` (line 35): all rows in input order. -/
def concatRows : List DataFrame → List Row
  | [] => []
  | df :: dfs => df.rows ++ concatRows dfs

/-- `pd.concat(processed_dfs, ignore_index=True)` of line 35. -/
def concatFrames (dfs : List DataFrame) : DataFrame :=
  { cols := unionCols dfs, rows := concatRows dfs }

/-- The sort key of line 38: the pair of the Acquisition Week cell and the
OS cell of a row. -/
def rowKey (r : Row) : Option Val × Option Val :=
  (getCell r "Acquisition Week", getCell r "OS")

/-- Lexicographic comparison of sort keys, first component first. -/
def keyLe (k1 k2 : Option Val × Option Val) : Bool :=
  if k1.1 = k2.1 then cellLe k1.2 k2.2 else cellLe k1.1 k2.1

def rowLe (r1 r2 : Row) : Bool := keyLe (rowKey r1) (rowKey r2)

/-- Stable insertion of an element into a list with respect to a boolean
comparison: the element is placed before the first strictly greater one. -/
def insertBy (le : α → α → Bool) (x : α) : List α → List α
  | [] => [x]
  | y :: ys => if le x y then x :: y :: ys else y :: insertBy le x ys

/-- Stable sort by a boolean comparison.  `sort_values` with several by
columns performs a lexicographic stable sort (numpy lexsort), and this
insertion sort computes the same function as every stable sort. -/
def sortBy (le : α → α → Bool) : List α → List α
  | [] => []
  | x :: xs => insertBy le x (sortBy le xs)

/-- Line 38, `df_combined.sort_values(by=['Acquisition Week', 'OS'])`. -/
def sortRows (df : DataFrame) : DataFrame :=
  { cols := df.cols, rows := sortBy rowLe df.rows }

/-- Removing duplicates keeping first occurrences, the order of
`Series.unique` in line 41. -/
def uniqList : List (Option Val) → List (Option Val)
  | [] => []
  | x :: xs => x :: (uniqList xs).filter (fun y => decide (y ≠ x))

/-- Line 41, `sorted(df_combined['Acquisition Week'].unique())`. -/
def uniqueDates (df : DataFrame) : List (Option Val) :=
  sortBy cellLe (uniqList (df.rows.map (fun r => getCell r "Acquisition Week")))

/-- Position of a value in a list, leftmost first. -/
def rankOf : List (Option Val) → Option Val → Option Nat
  | [], _ => none
  | x :: xs, d => if x = d then some 0 else (rankOf xs d).map (fun n => n + 1)

/-- The dictionary of line 42 applied to one date: the label
`"Week {i+1}"` where `i` is the position of the date among the sorted
distinct dates; `none` models the NaN that `Series.map` yields for a key
that is absent from the dictionary. -/
def weekCell (uniq : List (Option Val)) (d : Option Val) : Option Val :=
  match rankOf uniq d with
  | some i => some (Val.vStr ("Week " ++ toString (i + 1)))
  | none => none

/-- Line 44 applied to one row: the Week Number cell is assigned the
mapped label of the Acquisition Week cell of the row. -/
def addWeek (uniq : List (Option Val)) (r : Row) : Row :=
  match weekCell uniq (getCell r "Acquisition Week") with
  | some v => setCell r "Week Number" v
  | none => dropCell r "Week Number"

/-- Line 44, `df_combined['Week Number'] = ...`. -/
def addWeekCol (df : DataFrame) : DataFrame :=
  { cols := if "Week Number" ∈ df.cols then df.cols else df.cols ++ ["Week Number"],
    rows := df.rows.map (addWeek (uniqueDates df)) }

/-- Lines 47 to 50, the nine checkpoint columns of interest. -/
def weeksOfInterest : List String :=
  ["Week 8", "Week 12", "Week 16", "Week 20",
   "Week 24", "Week 28", "Week 32", "Week 36", "Week 40"]

/-- Lines 53 to 57, the fixed allow-list `target_columns` of the source,
with the euro-suffixed payout and gross column names it really holds. -/
def targetColumns : List String :=
  ["Acquisition Week", "Week Number", "OS",
   "Total Subscriptions", "Total Unsubscriptions", "Subs Remaining",
   "Payout Total (€)", "Total Gross (€)", "Margin"] ++ weeksOfInterest

/-- The allow-list as the specification words it: `Payout Total` and
`Total Gross` carry no euro suffix there.  Written from the spec, to be
compared with `targetColumns` written from the source. -/
def specTargetColumns : List String :=
  ["Acquisition Week", "Week Number", "OS",
   "Total Subscriptions", "Total Unsubscriptions", "Subs Remaining",
   "Payout Total", "Total Gross", "Margin"] ++ weeksOfInterest

/-- Restriction of one row to a column list, cells ordered as the list. -/
def projectRow (cs : List String) (r : Row) : Row :=
  cs.filterMap (fun c => (getCell r c).map (fun v => (c, v)))

/-- Lines 60 and 61: keep the allow-list columns that exist, in allow-list
order. -/
def projectCols (df : DataFrame) : DataFrame :=
  { cols := targetColumns.filter (fun c => decide (c ∈ df.cols)),
    rows := df.rows.map (projectRow (targetColumns.filter (fun c => decide (c ∈ df.cols)))) }

/-- The two failure exits of the pipeline: the early error return of
lines 32 and 33, and the KeyError that `sort_values` in line 38 raises
when a by column is absent from the combined frame. -/
inductive PipeError where
  | emptyInput : PipeError
  | keyError : String → PipeError
deriving DecidableEq

/-- The combined frame of line 35 as a function of the input mapping. -/
def combinedOf (dfs : List (String × DataFrame)) : DataFrame :=
  concatFrames (tagged dfs)

/-- The sorted frame of line 38. -/
def sortedOf (dfs : List (String × DataFrame)) : DataFrame :=
  sortRows (combinedOf dfs)

/-- The sorted distinct dates of line 41. -/
def datesOf (dfs : List (String × DataFrame)) : List (Option Val) :=
  uniqueDates (sortedOf dfs)

/-- The frame of line 44 carrying the Week Number column. -/
def withWeekOf (dfs : List (String × DataFrame)) : DataFrame :=
  addWeekCol (sortedOf dfs)

/-- The projected frame `df_final` of line 61. -/
def finalOf (dfs : List (String × DataFrame)) : DataFrame :=
  projectCols (withWeekOf dfs)

/-- `run_flexible_cohort_analysis`: the returned value of the source as a
function of the input mapping, with its error exits made explicit. -/
def run (dfs : List (String × DataFrame)) : Except PipeError DataFrame :=
  if (tagged dfs).isEmpty then Except.error PipeError.emptyInput
  else if "Acquisition Week" ∈ (combinedOf dfs).cols then
    if "OS" ∈ (combinedOf dfs).cols then Except.ok (finalOf dfs)
    else Except.error (PipeError.keyError "OS")
  else Except.error (PipeError.keyError "Acquisition Week")

/-- The rows of a successful result, the empty list on the error exits. -/
def okRows : Except PipeError DataFrame → List Row
  | Except.ok t => t.rows
  | Except.error _ => []

theorem getCell_append (r1 r2 : Row) (d : String) :
    getCell (r1 ++ r2) d =
      match getCell r1 d with
      | some v => some v
      | none => getCell r2 d := by
  induction r1 with
  | nil => simp [getCell]
  | cons p r ih =>
    obtain ⟨c, v⟩ := p
    by_cases h : c = d <;> simp [getCell, h, ih]

/-- A result row with its Week Number cell removed, used to compare merge
results while discounting the per-merge week ranks. -/
def stripWN (r : Row) : Row := dropCell r "Week Number"

/-- The per-row post processing a sorted combined row undergoes before it
is returned: week-number attachment followed by column projection. -/
def postOf (dfs : List (String × DataFrame)) (r : Row) : Row :=
  projectRow (finalOf dfs).cols (addWeek (datesOf dfs) r)

/-- Restriction of a row to the allow-list without the Week Number column:
the part of a returned row that does not depend on the week ranks. -/
def canonRow (r : Row) : Row :=
  projectRow (targetColumns.filter (fun c => !decide (c = "Week Number"))) r

/-- The tagging loop of lines 21 to 29 with the object store explicit: the
heap holds every allocated frame and the input mapping holds references
into it.  Each iteration allocates a fresh copy of the referenced frame
(`df_temp = df_raw.copy()`, line 23) and then assigns the OS column on
that copy in place (line 27), never on the frame the caller handed in. -/
def heapTagLoop : List DataFrame → List (String × Nat) → List DataFrame × List Nat
  | heap, [] => (heap, [])
  | heap, (name, ref) :: rest =>
    let src := heap.getD ref emptyFrame
    let heap1 := heap ++ [src]
    let tempRef := heap.length
    let heap2 := heap1.set tempRef (setCol (heap1.getD tempRef emptyFrame) "OS" (Val.vStr name))
    let next := heapTagLoop heap2 rest
    (next.1, tempRef :: next.2)

/-- Lines 32 to 61 on an already tagged list of frames. -/
def restOfPipeline (processed : List DataFrame) : Except PipeError DataFrame :=
  if processed.isEmpty then Except.error PipeError.emptyInput
  else if "Acquisition Week" ∈ (concatFrames processed).cols then
    if "OS" ∈ (concatFrames processed).cols then
      Except.ok (projectCols (addWeekCol (sortRows (concatFrames processed))))
    else Except.error (PipeError.keyError "OS")
  else Except.error (PipeError.keyError "Acquisition Week")

/-- The whole pipeline in the explicit-store model: the tagging loop may
touch the heap, the remaining steps are value level. -/
def runHeap (heap : List DataFrame) (dict : List (String × Nat)) :
    List DataFrame × Except PipeError DataFrame :=
  let p := heapTagLoop heap dict
  (p.1, restOfPipeline (p.2.map (fun i => p.1.getD i emptyFrame)))

/-- A one-dataset, one-row input mapping used as concrete witness input. -/
def exA : List (String × DataFrame) :=
  [("A", ⟨["Acquisition Week"], [[("Acquisition Week", Val.vInt 1)]]⟩)]

/-- The table the pipeline returns on `exA`. -/
def tA : DataFrame :=
  ⟨["Acquisition Week", "Week Number", "OS"],
   [[("Acquisition Week", Val.vInt 1), ("Week Number", Val.vStr "Week 1"),
     ("OS", Val.vStr "A")]]⟩

/-- An input whose dataset carries a column named `Payout Total`, the
euro-less spelling the specification uses for the allow-list. -/
def exC3 : List (String × DataFrame) :=
  [("A", ⟨["Acquisition Week", "Payout Total"],
          [[("Acquisition Week", Val.vInt 1), ("Payout Total", Val.vInt 5)]]⟩)]

/-- The table the pipeline returns on `exC3`. -/
def tC3 : DataFrame :=
  ⟨["Acquisition Week", "Week Number", "OS"],
   [[("Acquisition Week", Val.vInt 1), ("Week Number", Val.vStr "Week 1"),
     ("OS", Val.vStr "A")]]⟩

/-- A non-empty input whose only dataset lacks the Acquisition Week
column. -/
def exC5 : List (String × DataFrame) :=
  [("A", ⟨["Week 8"], [[("Week 8", Val.vInt 3)]]⟩)]

/-- Two datasets one of which lacks the `Week 8` checkpoint column. -/
def exC5w : List (String × DataFrame) :=
  [("A", ⟨["Acquisition Week", "Week 8"],
          [[("Acquisition Week", Val.vInt 1), ("Week 8", Val.vInt 7)]]⟩),
   ("B", ⟨["Acquisition Week"], [[("Acquisition Week", Val.vInt 2)]]⟩)]

/-- A dataset whose single acquisition date is later than that of `b8`. -/
def a8 : DataFrame := ⟨["Acquisition Week"], [[("Acquisition Week", Val.vInt 2)]]⟩

/-- A dataset whose single acquisition date is earlier than that of `a8`. -/
def b8 : DataFrame := ⟨["Acquisition Week"], [[("Acquisition Week", Val.vInt 1)]]⟩

/-- A one-frame heap for the explicit-store witness. -/
def heap9 : List DataFrame :=
  [⟨["Acquisition Week", "OS"],
    [[("Acquisition Week", Val.vInt 1), ("OS", Val.vStr "old")]]⟩]

/-- The input mapping referring to the only frame of `heap9`. -/
def dict9 : List (String × Nat) := [("A", 0)]

theorem valLe_refl (v : Val) : v.le v = true := by
  cases v <;> simp [Val.le]

theorem valLe_trans {a b c : Val} (h1 : a.le b = true) (h2 : b.le c = true) :
    a.le c = true := by
  cases a with
  | vInt x => cases b with
    | vInt y => cases c <;> simp_all [Val.le] <;> try omega
    | vStr t => cases c <;> simp_all [Val.le]
  | vStr s => cases b with
    | vInt y => cases c <;> simp_all [Val.le]
    | vStr t => cases c with
      | vInt z => simp_all [Val.le]
      | vStr u => simp_all [Val.le]; exact le_trans h1 h2

theorem valLe_total (a b : Val) : a.le b = true ∨ b.le a = true := by
  cases a with
  | vInt x => cases b with
    | vInt y => simp [Val.le]; omega
    | vStr t => simp [Val.le]
  | vStr s => cases b with
    | vInt y => simp [Val.le]
    | vStr t => simp [Val.le]; exact le_total s.data t.data

theorem valLe_antisymm {a b : Val} (h1 : a.le b = true) (h2 : b.le a = true) :
    a = b := by
  cases a with
  | vInt x => cases b with
    | vInt y => simp_all [Val.le]; omega
    | vStr t => simp_all [Val.le]
  | vStr s => cases b with
    | vInt y => simp_all [Val.le]
    | vStr t => simp_all [Val.le]; exact String.ext (le_antisymm h1 h2)

theorem cellLe_refl (a : Option Val) : cellLe a a = true := by
  cases a <;> simp [cellLe, valLe_refl]

theorem cellLe_trans {a b c : Option Val} (h1 : cellLe a b = true)
    (h2 : cellLe b c = true) : cellLe a c = true := by
  cases a <;> cases b <;> cases c <;> simp_all [cellLe]
  exact valLe_trans h1 h2

theorem cellLe_total (a b : Option Val) : cellLe a b = true ∨ cellLe b a = true := by
  cases a with
  | none => cases b <;> simp [cellLe]
  | some x => cases b with
    | none => simp [cellLe]
    | some y => simpa [cellLe] using valLe_total x y

theorem cellLe_antisymm {a b : Option Val} (h1 : cellLe a b = true)
    (h2 : cellLe b a = true) : a = b := by
  cases a <;> cases b <;> simp_all [cellLe]
  exact valLe_antisymm h1 h2

theorem getCell_filter_keyNe_self (r : Row) (c : String) :
    getCell (List.filter (keyNe c) r) c = none := by
  induction r with
  | nil => rfl
  | cons p r ih =>
    obtain ⟨a, b⟩ := p
    by_cases h : a = c
    · simp [List.filter_cons, keyNe, h, ih]
    · simp [List.filter_cons, keyNe, h, getCell, ih]

theorem getCell_filter_keyNe_ne (r : Row) {c d : String} (h : d ≠ c) :
    getCell (List.filter (keyNe c) r) d = getCell r d := by
  induction r with
  | nil => rfl
  | cons p r ih =>
    obtain ⟨a, b⟩ := p
    by_cases ha : a = c
    · subst ha
      have h2 : ¬(a = d) := fun hd => h hd.symm
      simp [List.filter_cons, keyNe, getCell, h2, ih]
    · by_cases hd : a = d <;> simp [List.filter_cons, keyNe, getCell, ha, hd, h, ih]

theorem getCell_setCell_self (r : Row) (c : String) (v : Val) :
    getCell (setCell r c v) c = some v := by
  unfold setCell
  induction r with
  | nil => simp [getCell]
  | cons p r ih =>
    obtain ⟨a, b⟩ := p
    by_cases h : a = c
    · simp [List.filter_cons, keyNe, h, ih]
    · simp [List.filter_cons, keyNe, h, getCell, ih]

theorem getCell_setCell_ne (r : Row) {c d : String} (v : Val) (h : d ≠ c) :
    getCell (setCell r c v) d = getCell r d := by
  unfold setCell
  have h2 : ¬(c = d) := fun hd => h hd.symm
  induction r with
  | nil => simp [getCell, h2]
  | cons p r ih =>
    obtain ⟨a, b⟩ := p
    by_cases ha : a = c
    · subst ha
      simp [List.filter_cons, keyNe, getCell, h2, ih]
    · by_cases hd : a = d <;> simp [List.filter_cons, keyNe, getCell, ha, hd, h, ih]

theorem getCell_dropCell_self (r : Row) (c : String) :
    getCell (dropCell r c) c = none :=
  getCell_filter_keyNe_self r c

theorem getCell_dropCell_ne (r : Row) {c d : String} (h : d ≠ c) :
    getCell (dropCell r c) d = getCell r d :=
  getCell_filter_keyNe_ne r h

theorem getCell_addWeek_week (uniq : List (Option Val)) (r : Row) :
    getCell (addWeek uniq r) "Week Number" =
      weekCell uniq (getCell r "Acquisition Week") := by
  unfold addWeek
  cases h : weekCell uniq (getCell r "Acquisition Week") with
  | some v => simp [getCell_setCell_self]
  | none => simp [getCell_dropCell_self]

theorem getCell_addWeek_ne (uniq : List (Option Val)) (r : Row) {d : String}
    (h : d ≠ "Week Number") :
    getCell (addWeek uniq r) d = getCell r d := by
  unfold addWeek
  cases weekCell uniq (getCell r "Acquisition Week") with
  | some v => exact getCell_setCell_ne r v h
  | none => exact getCell_dropCell_ne r h

theorem projectRow_cons (c : String) (cs : List String) (r : Row) :
    projectRow (c :: cs) r =
      match getCell r c with
      | some v => (c, v) :: projectRow cs r
      | none => projectRow cs r := by
  unfold projectRow
  rw [List.filterMap_cons]
  cases getCell r c <;> rfl

theorem getCell_projectRow (cs : List String) (r : Row) (d : String) :
    getCell (projectRow cs r) d = if d ∈ cs then getCell r d else none := by
  induction cs with
  | nil => simp [projectRow, getCell]
  | cons c cs ih =>
    rw [projectRow_cons]
    cases h : getCell r c with
    | none =>
      rw [ih]
      by_cases hc : d = c
      · subst hc
        by_cases hd : d ∈ cs <;> simp [hd, h, List.mem_cons]
      · simp [List.mem_cons, hc]
    | some v =>
      by_cases hc : c = d
      · subst hc
        simp [getCell, h, List.mem_cons]
      · have hdc : ¬(d = c) := fun hh => hc hh.symm
        simp only [getCell, if_neg hc]
        rw [ih]
        simp [List.mem_cons, hdc]

theorem perm_insertBy (le : α → α → Bool) (x : α) (l : List α) :
    (insertBy le x l).Perm (x :: l) := by
  induction l with
  | nil => exact List.Perm.refl _
  | cons y ys ih =>
    unfold insertBy
    by_cases h : le x y = true
    · simp [h]
    · simp only [Bool.not_eq_true] at h
      simp only [h]
      exact (ih.cons y).trans (List.Perm.swap x y ys)

theorem perm_sortBy (le : α → α → Bool) (l : List α) :
    (sortBy le l).Perm l := by
  induction l with
  | nil => exact List.Perm.refl _
  | cons x xs ih =>
    unfold sortBy
    exact (perm_insertBy le x (sortBy le xs)).trans (ih.cons x)

theorem length_sortBy (le : α → α → Bool) (l : List α) :
    (sortBy le l).length = l.length :=
  (perm_sortBy le l).length_eq

theorem mem_insertBy (le : α → α → Bool) (x a : α) (l : List α) :
    a ∈ insertBy le x l ↔ a = x ∨ a ∈ l := by
  rw [(perm_insertBy le x l).mem_iff]
  simp

theorem pairwise_insertBy {le : α → α → Bool}
    (htot : ∀ a b, le a b = false → le b a = true)
    (htr : ∀ a b c, le a b = true → le b c = true → le a c = true)
    {x : α} {l : List α} (h : l.Pairwise (fun a b => le a b = true)) :
    (insertBy le x l).Pairwise (fun a b => le a b = true) := by
  induction l with
  | nil => simp [insertBy]
  | cons y ys ih =>
    unfold insertBy
    rcases List.pairwise_cons.mp h with ⟨hy, hys⟩
    by_cases hxy : le x y = true
    · simp only [hxy, if_true]
      refine List.pairwise_cons.mpr ⟨?_, h⟩
      intro b hb
      rcases List.mem_cons.mp hb with hb | hb
      · subst hb
        exact hxy
      · exact htr x y b hxy (hy b hb)
    · simp only [Bool.not_eq_true] at hxy
      simp only [hxy]
      simp only [Bool.false_eq_true, if_false]
      refine List.pairwise_cons.mpr ⟨?_, ih hys⟩
      intro b hb
      rcases (mem_insertBy le x b ys).mp hb with hb | hb
      · rw [hb]
        exact htot x y hxy
      · exact hy b hb

theorem sorted_sortBy {le : α → α → Bool}
    (htot : ∀ a b, le a b = false → le b a = true)
    (htr : ∀ a b c, le a b = true → le b c = true → le a c = true)
    (l : List α) :
    (sortBy le l).Pairwise (fun a b => le a b = true) := by
  induction l with
  | nil => simp [sortBy]
  | cons x xs ih =>
    unfold sortBy
    exact pairwise_insertBy htot htr ih

theorem filter_insertBy {le : α → α → Bool} {p : α → Bool}
    (hp : ∀ a b, le a b = false → p a = true → p b = true → False)
    (x : α) (l : List α) :
    (insertBy le x l).filter p = (x :: l).filter p := by
  induction l with
  | nil => rfl
  | cons y ys ih =>
    unfold insertBy
    by_cases hxy : le x y = true
    · simp [hxy]
    · simp only [Bool.not_eq_true] at hxy
      simp only [hxy]
      simp only [Bool.false_eq_true, if_false]
      rw [List.filter_cons, List.filter_cons, List.filter_cons]
      by_cases hpx : p x = true
      · have hpy : ¬(p y = true) := fun hy => hp x y hxy hpx hy
        simp only [Bool.not_eq_true] at hpy
        simp only [hpy, hpx]
        rw [ih]
        simp [List.filter_cons, hpx]
      · simp only [Bool.not_eq_true] at hpx
        simp only [hpx]
        rw [ih]
        rw [List.filter_cons]
        simp [hpx]

theorem filter_sortBy {le : α → α → Bool} {p : α → Bool}
    (hp : ∀ a b, le a b = false → p a = true → p b = true → False)
    (l : List α) :
    (sortBy le l).filter p = l.filter p := by
  induction l with
  | nil => rfl
  | cons x xs ih =>
    unfold sortBy
    rw [filter_insertBy hp, List.filter_cons, List.filter_cons, ih]

theorem keyLe_refl (k : Option Val × Option Val) : keyLe k k = true := by
  simp [keyLe, cellLe_refl]

theorem keyLe_total {k1 k2 : Option Val × Option Val} (h : keyLe k1 k2 = false) :
    keyLe k2 k1 = true := by
  unfold keyLe at h ⊢
  by_cases h1 : k1.1 = k2.1
  · rw [if_pos h1] at h
    rw [if_pos h1.symm]
    rcases cellLe_total k1.2 k2.2 with hc | hc
    · exact absurd hc (by simp [h])
    · exact hc
  · have h2 : ¬(k2.1 = k1.1) := fun hh => h1 hh.symm
    rw [if_neg h1] at h
    rw [if_neg h2]
    rcases cellLe_total k1.1 k2.1 with hc | hc
    · exact absurd hc (by simp [h])
    · exact hc

theorem keyLe_trans {k1 k2 k3 : Option Val × Option Val} (h1 : keyLe k1 k2 = true)
    (h2 : keyLe k2 k3 = true) : keyLe k1 k3 = true := by
  unfold keyLe at h1 h2 ⊢
  by_cases e12 : k1.1 = k2.1
  · rw [if_pos e12] at h1
    by_cases e23 : k2.1 = k3.1
    · rw [if_pos e23] at h2
      rw [if_pos (e12.trans e23)]
      exact cellLe_trans h1 h2
    · rw [if_neg e23] at h2
      have e13 : ¬(k1.1 = k3.1) := by
        rw [e12]
        exact e23
      rw [if_neg e13, e12]
      exact h2
  · rw [if_neg e12] at h1
    by_cases e23 : k2.1 = k3.1
    · rw [if_pos e23] at h2
      have e13 : ¬(k1.1 = k3.1) := by
        rw [← e23]
        exact e12
      rw [if_neg e13, ← e23]
      exact h1
    · rw [if_neg e23] at h2
      by_cases e13 : k1.1 = k3.1
      · exfalso
        have := cellLe_antisymm h1 (e13 ▸ h2)
        exact e12 this
      · rw [if_neg e13]
        exact cellLe_trans h1 h2

theorem rowLe_total {r1 r2 : Row} (h : rowLe r1 r2 = false) : rowLe r2 r1 = true :=
  keyLe_total h

theorem rowLe_trans {r1 r2 r3 : Row} (h1 : rowLe r1 r2 = true)
    (h2 : rowLe r2 r3 = true) : rowLe r1 r3 = true :=
  keyLe_trans h1 h2

theorem rowLe_totalB (r1 r2 : Row) (h : rowLe r1 r2 = false) : rowLe r2 r1 = true :=
  rowLe_total h

theorem rowLe_transB (r1 r2 r3 : Row) (h1 : rowLe r1 r2 = true)
    (h2 : rowLe r2 r3 = true) : rowLe r1 r3 = true :=
  rowLe_trans h1 h2

theorem rowLe_false_key_ne {r1 r2 : Row} (h : rowLe r1 r2 = false) :
    rowKey r1 ≠ rowKey r2 := by
  intro he
  have : rowLe r1 r2 = true := by
    unfold rowLe
    rw [he]
    exact keyLe_refl (rowKey r2)
  simp [this] at h

theorem mem_unionCols (c : String) (dfs : List DataFrame) :
    c ∈ unionCols dfs ↔ ∃ df, df ∈ dfs ∧ c ∈ df.cols := by
  induction dfs with
  | nil => simp [unionCols]
  | cons df dfs ih =>
    unfold unionCols
    rw [List.mem_append, List.mem_filter, ih]
    simp only [List.mem_cons, decide_eq_true_eq]
    constructor
    · rintro (h | ⟨⟨df2, hdf2, hc2⟩, hnot⟩)
      · exact ⟨df, Or.inl rfl, h⟩
      · exact ⟨df2, Or.inr hdf2, hc2⟩
    · rintro ⟨df2, hdf2 | hdf2, hc2⟩
      · rw [hdf2] at hc2
        exact Or.inl hc2
      · by_cases h : c ∈ df.cols
        · exact Or.inl h
        · exact Or.inr ⟨⟨df2, hdf2, hc2⟩, h⟩

theorem length_concatRows (dfs : List DataFrame) :
    (concatRows dfs).length = (dfs.map (fun df => df.rows.length)).sum := by
  induction dfs with
  | nil => rfl
  | cons df dfs ih => simp [concatRows, ih]

theorem mem_cols_setCol (df : DataFrame) (c : String) (v : Val) (d : String) :
    d ∈ (setCol df c v).cols ↔ d ∈ df.cols ∨ d = c := by
  unfold setCol
  by_cases h : c ∈ df.cols
  · simp only [h, if_true]
    constructor
    · exact Or.inl
    · rintro (h1 | h1)
      · exact h1
      · rw [h1]
        exact h
  · simp [h, List.mem_append]

theorem mem_uniqList (a : Option Val) (l : List (Option Val)) :
    a ∈ uniqList l ↔ a ∈ l := by
  induction l with
  | nil => simp [uniqList]
  | cons x xs ih =>
    by_cases h : a = x
    · simp [uniqList, List.mem_cons, h]
    · simp [uniqList, List.mem_cons, List.mem_filter, h, ih]

theorem nodup_uniqList (l : List (Option Val)) : (uniqList l).Nodup := by
  induction l with
  | nil => simp [uniqList]
  | cons x xs ih =>
    have hx : x ∉ (uniqList xs).filter (fun y => decide (y ≠ x)) := by
      intro hmem
      rcases List.mem_filter.mp hmem with ⟨h1, h2⟩
      simp at h2
    exact List.Nodup.cons hx (ih.filter _)

theorem rankOf_eq_none_iff (l : List (Option Val)) (d : Option Val) :
    rankOf l d = none ↔ d ∉ l := by
  induction l with
  | nil => simp [rankOf]
  | cons x xs ih =>
    unfold rankOf
    by_cases h : x = d
    · simp [h]
    · have h2 : ¬(d = x) := fun hh => h hh.symm
      simp [h, h2, Option.map_eq_none', ih]

theorem rankOf_mem_isSome {l : List (Option Val)} {d : Option Val} (hd : d ∈ l) :
    ∃ i, rankOf l d = some i := by
  cases h : rankOf l d with
  | some i => exact ⟨i, rfl⟩
  | none => exact absurd hd ((rankOf_eq_none_iff l d).mp h)

theorem rankOf_get (l : List (Option Val)) (h : l.Nodup) (i : Fin l.length) :
    rankOf l (l.get i) = some i.val := by
  induction l with
  | nil => exact absurd i.isLt (by simp)
  | cons x xs ih =>
    rcases List.nodup_cons.mp h with ⟨hx, hxs⟩
    cases i using Fin.cases with
    | zero => simp [rankOf, List.get]
    | succ j =>
      have hget : (x :: xs).get j.succ = xs.get j := rfl
      unfold rankOf
      have hne : ¬(x = (x :: xs).get j.succ) := by
        rw [hget]
        intro heq
        rw [heq] at hx
        exact hx (List.get_mem xs j.val j.isLt)
      rw [if_neg hne, hget, ih hxs j]
      rfl

theorem weekCell_get (u : List (Option Val)) (hnd : u.Nodup) (i : Fin u.length) :
    weekCell u (u.get i) = some (Val.vStr ("Week " ++ toString (i.val + 1))) := by
  unfold weekCell
  rw [rankOf_get u hnd i]

theorem sortedOf_cols (dfs : List (String × DataFrame)) :
    (sortedOf dfs).cols = (combinedOf dfs).cols := rfl

theorem sortedOf_rows (dfs : List (String × DataFrame)) :
    (sortedOf dfs).rows = sortBy rowLe (combinedOf dfs).rows := rfl

theorem withWeekOf_rows (dfs : List (String × DataFrame)) :
    (withWeekOf dfs).rows = (sortedOf dfs).rows.map (addWeek (datesOf dfs)) := rfl

theorem finalOf_cols (dfs : List (String × DataFrame)) :
    (finalOf dfs).cols =
      targetColumns.filter (fun c => decide (c ∈ (withWeekOf dfs).cols)) := rfl

theorem finalOf_rows (dfs : List (String × DataFrame)) :
    (finalOf dfs).rows = (withWeekOf dfs).rows.map (projectRow (finalOf dfs).cols) := rfl

theorem mem_cols_withWeek (dfs : List (String × DataFrame)) (d : String) :
    d ∈ (withWeekOf dfs).cols ↔
      d ∈ (combinedOf dfs).cols ∨ d = "Week Number" := by
  show d ∈ (addWeekCol (sortedOf dfs)).cols ↔ _
  unfold addWeekCol
  rw [sortedOf_cols]
  by_cases h : "Week Number" ∈ (combinedOf dfs).cols
  · simp only [sortedOf_cols, h, if_true]
    constructor
    · exact Or.inl
    · rintro (h1 | h1)
      · exact h1
      · rw [h1]
        exact h
  · simp [sortedOf_cols, h, List.mem_append]

theorem mem_finalOf_cols (dfs : List (String × DataFrame)) (d : String) :
    d ∈ (finalOf dfs).cols ↔ d ∈ targetColumns ∧ d ∈ (withWeekOf dfs).cols := by
  rw [finalOf_cols, List.mem_filter]
  simp

theorem rowKey_addWeek (u : List (Option Val)) (r : Row) :
    rowKey (addWeek u r) = rowKey r := by
  unfold rowKey
  rw [getCell_addWeek_ne u r (by decide), getCell_addWeek_ne u r (by decide)]

theorem rowKey_projectRow {cs : List String} (hAW : "Acquisition Week" ∈ cs)
    (hOS : "OS" ∈ cs) (r : Row) :
    rowKey (projectRow cs r) = rowKey r := by
  unfold rowKey
  rw [getCell_projectRow, getCell_projectRow, if_pos hAW, if_pos hOS]

theorem tagged_ne_nil {dfs : List (String × DataFrame)} (h : dfs ≠ []) :
    ¬((tagged dfs).isEmpty = true) := by
  cases dfs with
  | nil => exact absurd rfl h
  | cons p rest => simp [tagged]

theorem os_mem_combined {dfs : List (String × DataFrame)} (h : dfs ≠ []) :
    "OS" ∈ (combinedOf dfs).cols := by
  cases dfs with
  | nil => exact absurd rfl h
  | cons p rest =>
    show "OS" ∈ unionCols (tagged (p :: rest))
    rw [mem_unionCols]
    refine ⟨setCol p.2 "OS" (Val.vStr p.1), ?_, ?_⟩
    · simp [tagged]
    · exact (mem_cols_setCol p.2 "OS" (Val.vStr p.1) "OS").mpr (Or.inr rfl)

theorem run_ok_elim {dfs : List (String × DataFrame)} {t : DataFrame}
    (h : run dfs = Except.ok t) :
    dfs ≠ [] ∧ "Acquisition Week" ∈ (combinedOf dfs).cols ∧
      "OS" ∈ (combinedOf dfs).cols ∧ t = finalOf dfs := by
  unfold run at h
  split at h
  · exact absurd h (by simp)
  · next h1 =>
    split at h
    · next h2 =>
      split at h
      · next h3 =>
        refine ⟨?_, h2, h3, ?_⟩
        · intro hd
          rw [hd] at h1
          exact h1 rfl
        · injection h with h
          exact h.symm
      · next h3 => exact absurd h (by simp)
    · next h2 => exact absurd h (by simp)

theorem run_ok_intro {dfs : List (String × DataFrame)} (h1 : dfs ≠ [])
    (h2 : "Acquisition Week" ∈ (combinedOf dfs).cols) :
    run dfs = Except.ok (finalOf dfs) := by
  unfold run
  rw [if_neg (tagged_ne_nil h1), if_pos h2, if_pos (os_mem_combined h1)]

theorem cellLe_totalB (a b : Option Val) (h : cellLe a b = false) : cellLe b a = true := by
  rcases cellLe_total a b with hc | hc
  · exact absurd hc (by simp [h])
  · exact hc

theorem cellLe_transB (a b c : Option Val) (h1 : cellLe a b = true)
    (h2 : cellLe b c = true) : cellLe a c = true :=
  cellLe_trans h1 h2

theorem mem_datesOf (dfs : List (String × DataFrame)) (d : Option Val) :
    d ∈ datesOf dfs ↔
      d ∈ (combinedOf dfs).rows.map (fun r => getCell r "Acquisition Week") := by
  unfold datesOf uniqueDates
  rw [(perm_sortBy cellLe _).mem_iff, mem_uniqList, sortedOf_rows]
  exact ((perm_sortBy rowLe (combinedOf dfs).rows).map _).mem_iff

theorem nodup_datesOf (dfs : List (String × DataFrame)) : (datesOf dfs).Nodup := by
  unfold datesOf uniqueDates
  exact (perm_sortBy cellLe _).symm.nodup (nodup_uniqList _)

theorem sorted_datesOf (dfs : List (String × DataFrame)) :
    (datesOf dfs).Pairwise (fun d1 d2 => cellLe d1 d2 = true) := by
  unfold datesOf uniqueDates
  exact sorted_sortBy cellLe_totalB cellLe_transB _

theorem finalOf_rows_eq (dfs : List (String × DataFrame)) :
    (finalOf dfs).rows = (sortBy rowLe (combinedOf dfs).rows).map (postOf dfs) := by
  rw [finalOf_rows, withWeekOf_rows, sortedOf_rows, List.map_map]
  rfl

theorem aw_mem_finalCols {dfs : List (String × DataFrame)}
    (h2 : "Acquisition Week" ∈ (combinedOf dfs).cols) :
    "Acquisition Week" ∈ (finalOf dfs).cols :=
  (mem_finalOf_cols dfs _).mpr
    ⟨by decide, (mem_cols_withWeek dfs _).mpr (Or.inl h2)⟩

theorem os_mem_finalCols {dfs : List (String × DataFrame)}
    (h3 : "OS" ∈ (combinedOf dfs).cols) :
    "OS" ∈ (finalOf dfs).cols :=
  (mem_finalOf_cols dfs _).mpr
    ⟨by decide, (mem_cols_withWeek dfs _).mpr (Or.inl h3)⟩

theorem wn_mem_finalCols (dfs : List (String × DataFrame)) :
    "Week Number" ∈ (finalOf dfs).cols :=
  (mem_finalOf_cols dfs _).mpr
    ⟨by decide, (mem_cols_withWeek dfs _).mpr (Or.inr rfl)⟩

theorem rowKey_postOf {dfs : List (String × DataFrame)}
    (h2 : "Acquisition Week" ∈ (combinedOf dfs).cols)
    (h3 : "OS" ∈ (combinedOf dfs).cols) (r : Row) :
    rowKey (postOf dfs r) = rowKey r := by
  unfold postOf
  rw [rowKey_projectRow (aw_mem_finalCols h2) (os_mem_finalCols h3), rowKey_addWeek]

theorem rowKey_stripWN (r : Row) : rowKey (stripWN r) = rowKey r := by
  unfold rowKey stripWN
  rw [getCell_dropCell_ne r (by decide), getCell_dropCell_ne r (by decide)]

theorem filter_key_sortBy (k : Option Val × Option Val) (l : List Row) :
    (sortBy rowLe l).filter (fun r => decide (rowKey r = k)) =
      l.filter (fun r => decide (rowKey r = k)) := by
  apply filter_sortBy
  intro a b hab hpa hpb
  rw [decide_eq_true_eq] at hpa hpb
  exact rowLe_false_key_ne hab (hpa.trans hpb.symm)

theorem tagged_row_lengths (dfs : List (String × DataFrame)) :
    (tagged dfs).map (fun df => df.rows.length) =
      dfs.map (fun p => p.2.rows.length) := by
  induction dfs with
  | nil => rfl
  | cons p ps ih => simp [tagged, setCol] at ih ⊢

/-- Claim C1: for every input mapping on which the pipeline succeeds, the
returned table has exactly as many rows as all input datasets together:
tagging, concatenation, sorting, week-index derivation and column
projection neither drop nor duplicate rows. -/
theorem C1_row_count {dfs : List (String × DataFrame)} {t : DataFrame}
    (h : run dfs = Except.ok t) :
    t.rows.length = (dfs.map (fun p => p.2.rows.length)).sum := by
  obtain ⟨hne, h2, h3, ht⟩ := run_ok_elim h
  rw [ht, finalOf_rows_eq, List.length_map, length_sortBy]
  show (concatRows (tagged dfs)).length = _
  rw [length_concatRows, tagged_row_lengths]

/-- Witness for C1: the concrete one-row input `exA` satisfies the
hypothesis and the row count adds up. -/
theorem C1_row_count_witness :
    run exA = Except.ok tA ∧
      tA.rows.length = (exA.map (fun p => p.2.rows.length)).sum :=
  ⟨rfl, @C1_row_count exA tA rfl⟩

/-- Claim C4: the empty mapping makes the pipeline fail with the
descriptive empty-input error result of lines 32 and 33, before any
concatenation, sorting or chart generation is reached. -/
theorem C4_empty_input : run [] = Except.error PipeError.emptyInput := rfl

/-- Claim C10: every successful run returns a table that carries the
Acquisition Week, Week Number and OS columns. -/
theorem C10_core_columns {dfs : List (String × DataFrame)} {t : DataFrame}
    (h : run dfs = Except.ok t) :
    "Acquisition Week" ∈ t.cols ∧ "Week Number" ∈ t.cols ∧ "OS" ∈ t.cols := by
  obtain ⟨hne, h2, h3, ht⟩ := run_ok_elim h
  rw [ht]
  exact ⟨aw_mem_finalCols h2, wn_mem_finalCols dfs, os_mem_finalCols h3⟩

/-- Witness for C10 at the concrete input `exA`. -/
theorem C10_core_columns_witness :
    run exA = Except.ok tA ∧
      ("Acquisition Week" ∈ tA.cols ∧ "Week Number" ∈ tA.cols ∧ "OS" ∈ tA.cols) :=
  ⟨rfl, @C10_core_columns exA tA rfl⟩

/-- Counterexample to Claim C5 as stated: a non-empty mapping whose only
dataset lacks the Acquisition Week column makes the pipeline raise the
KeyError of `sort_values` instead of proceeding to a partial result. -/
theorem C5_counterexample :
    exC5 ≠ [] ∧ run exC5 = Except.error (PipeError.keyError "Acquisition Week") :=
  ⟨by decide, rfl⟩

/-- Claim C5 (amended): missing expected columns are non-fatal and the
pipeline returns a well-defined partial table built from the columns that
are available, provided the Acquisition Week column is present in the
combined table; when Acquisition Week is absent everywhere the sort
raises. -/
theorem C5_missing_columns {dfs : List (String × DataFrame)} (h1 : dfs ≠ [])
    (h2 : "Acquisition Week" ∈ (combinedOf dfs).cols) :
    ∃ t, run dfs = Except.ok t ∧
      t.cols = targetColumns.filter (fun c => decide (c ∈ (withWeekOf dfs).cols)) :=
  ⟨finalOf dfs, run_ok_intro h1 h2, rfl⟩

/-- Witness for C5 (amended): in `exC5w` the second dataset lacks the
`Week 8` checkpoint column, yet the pipeline succeeds. -/
theorem C5_missing_columns_witness :
    exC5w ≠ [] ∧ "Acquisition Week" ∈ (combinedOf exC5w).cols ∧
      ∃ t, run exC5w = Except.ok t ∧
        t.cols = targetColumns.filter (fun c => decide (c ∈ (withWeekOf exC5w).cols)) :=
  ⟨by decide, by decide, C5_missing_columns (by decide) (by decide)⟩

/-- Counterexample to Claim C3 as stated: the input `exC3` carries a
column named `Payout Total`, which the allow-list worded as in the
specification would keep, but the source allow-list holds the euro name
`Payout Total (€)` and the returned table drops the column. -/
theorem C3_counterexample :
    run exC3 = Except.ok tC3 ∧
      "Payout Total" ∈ (withWeekOf exC3).cols ∧
      tC3.cols ≠ specTargetColumns.filter (fun c => decide (c ∈ (withWeekOf exC3).cols)) :=
  ⟨rfl, by decide, by decide⟩

/-- Claim C3 (amended): the returned columns are exactly the source
allow-list, in which the payout and gross column names carry the euro
suffix, intersected with the columns present, in allow-list order; a
column outside the allow-list never appears. -/
theorem C3_projection {dfs : List (String × DataFrame)} {t : DataFrame}
    (h : run dfs = Except.ok t) :
    t.cols = targetColumns.filter (fun c => decide (c ∈ (withWeekOf dfs).cols)) ∧
      ∀ c, c ∈ t.cols → c ∈ targetColumns := by
  obtain ⟨hne, h2, h3, ht⟩ := run_ok_elim h
  rw [ht]
  refine ⟨finalOf_cols dfs, ?_⟩
  intro c hc
  exact ((mem_finalOf_cols dfs c).mp hc).1

/-- Witness for C3 (amended) at the concrete input `exA`. -/
theorem C3_projection_witness :
    run exA = Except.ok tA ∧
      (tA.cols = targetColumns.filter (fun c => decide (c ∈ (withWeekOf exA).cols)) ∧
        ∀ c, c ∈ tA.cols → c ∈ targetColumns) :=
  ⟨rfl, @C3_projection exA tA rfl⟩

/-- Claim C2: the derived Week Number labels rank the distinct acquisition
dates of the whole combined table: the rank list is strictly ascending,
position i carries the label `Week i+1` so ranks run 1..N without gaps or
repeats, every returned row carries the label of its own date, and rows
sharing a date share a label. -/
theorem C2_week_index {dfs : List (String × DataFrame)} {t : DataFrame}
    (h : run dfs = Except.ok t) :
    (∀ d, d ∈ datesOf dfs ↔
        d ∈ (combinedOf dfs).rows.map (fun r => getCell r "Acquisition Week")) ∧
    (datesOf dfs).Pairwise (fun d1 d2 => cellLe d1 d2 = true ∧ d1 ≠ d2) ∧
    (∀ i : Fin (datesOf dfs).length,
        weekCell (datesOf dfs) ((datesOf dfs).get i) =
          some (Val.vStr ("Week " ++ toString (i.val + 1)))) ∧
    (∀ r ∈ t.rows, getCell r "Week Number" =
        weekCell (datesOf dfs) (getCell r "Acquisition Week")) ∧
    (∀ r1 ∈ t.rows, ∀ r2 ∈ t.rows,
        getCell r1 "Acquisition Week" = getCell r2 "Acquisition Week" →
          getCell r1 "Week Number" = getCell r2 "Week Number") := by
  obtain ⟨hne, h2, h3, ht⟩ := run_ok_elim h
  have hrow : ∀ r ∈ t.rows, getCell r "Week Number" =
      weekCell (datesOf dfs) (getCell r "Acquisition Week") := by
    intro r hr
    rw [ht, finalOf_rows_eq] at hr
    rcases List.mem_map.mp hr with ⟨r0, hr0, hpr⟩
    rw [← hpr]
    unfold postOf
    rw [getCell_projectRow ((finalOf dfs).cols) (addWeek (datesOf dfs) r0) "Week Number",
      if_pos (wn_mem_finalCols dfs), getCell_addWeek_week,
      getCell_projectRow ((finalOf dfs).cols) (addWeek (datesOf dfs) r0) "Acquisition Week",
      if_pos (aw_mem_finalCols h2),
      getCell_addWeek_ne (datesOf dfs) r0 (by decide)]
  refine ⟨mem_datesOf dfs, ?_, ?_, hrow, ?_⟩
  · exact (sorted_datesOf dfs).and (nodup_datesOf dfs)
  · intro i
    exact weekCell_get (datesOf dfs) (nodup_datesOf dfs) i
  · intro r1 hr1 r2 hr2 heq
    rw [hrow r1 hr1, hrow r2 hr2, heq]

/-- Witness for C2 at the concrete input `exA`. -/
theorem C2_week_index_witness :
    run exA = Except.ok tA ∧
      ((∀ d, d ∈ datesOf exA ↔
          d ∈ (combinedOf exA).rows.map (fun r => getCell r "Acquisition Week")) ∧
      (datesOf exA).Pairwise (fun d1 d2 => cellLe d1 d2 = true ∧ d1 ≠ d2) ∧
      (∀ i : Fin (datesOf exA).length,
          weekCell (datesOf exA) ((datesOf exA).get i) =
            some (Val.vStr ("Week " ++ toString (i.val + 1)))) ∧
      (∀ r ∈ tA.rows, getCell r "Week Number" =
          weekCell (datesOf exA) (getCell r "Acquisition Week")) ∧
      (∀ r1 ∈ tA.rows, ∀ r2 ∈ tA.rows,
          getCell r1 "Acquisition Week" = getCell r2 "Acquisition Week" →
            getCell r1 "Week Number" = getCell r2 "Week Number")) :=
  ⟨rfl, @C2_week_index exA tA rfl⟩

/-- Claim C6: the returned rows are sorted by the pair of Acquisition Week
and OS, ascending and lexicographic, and the sort is stable: within one
sort key the returned rows are the post-processed combined rows in their
pre-sort order. -/
theorem C6_sorted_stable {dfs : List (String × DataFrame)} {t : DataFrame}
    (h : run dfs = Except.ok t) :
    List.Chain' (fun r1 r2 => rowLe r1 r2 = true) t.rows ∧
    ∀ k : Option Val × Option Val,
      t.rows.filter (fun r => decide (rowKey r = k)) =
        ((combinedOf dfs).rows.map (postOf dfs)).filter
          (fun r => decide (rowKey r = k)) := by
  obtain ⟨hne, h2, h3, ht⟩ := run_ok_elim h
  rw [ht]
  have hpres : ∀ a b : Row, rowLe a b = true →
      rowLe (postOf dfs a) (postOf dfs b) = true := by
    intro a b hab
    unfold rowLe
    rw [rowKey_postOf h2 h3, rowKey_postOf h2 h3]
    exact hab
  constructor
  · rw [finalOf_rows_eq]
    exact (List.Pairwise.map (postOf dfs) hpres
      (sorted_sortBy rowLe_totalB rowLe_transB _)).chain'
  · intro k
    rw [finalOf_rows_eq, List.filter_map, List.filter_map]
    have hfun : ((fun r => decide (rowKey r = k)) ∘ (postOf dfs)) =
        (fun r => decide (rowKey r = k)) := by
      funext r
      simp [Function.comp, rowKey_postOf h2 h3]
    rw [hfun, filter_key_sortBy]

/-- Witness for C6 at the concrete input `exA`. -/
theorem C6_sorted_stable_witness :
    run exA = Except.ok tA ∧
      (List.Chain' (fun r1 r2 => rowLe r1 r2 = true) tA.rows ∧
      ∀ k : Option Val × Option Val,
        tA.rows.filter (fun r => decide (rowKey r = k)) =
          ((combinedOf exA).rows.map (postOf exA)).filter
            (fun r => decide (rowKey r = k))) :=
  ⟨rfl, @C6_sorted_stable exA tA rfl⟩

theorem concatRows_tagged_map (g : Row → Row) (dfs : List (String × DataFrame)) :
    (concatRows (tagged dfs)).map g =
      (dfs.map (fun p => p.2.rows.map
        (fun r => g (setCell r "OS" (Val.vStr p.1))))).flatten := by
  induction dfs with
  | nil => rfl
  | cons p ps ih =>
    show ((setCol p.2 "OS" (Val.vStr p.1)).rows ++ concatRows (tagged ps)).map g = _
    rw [List.map_append, ih, List.map_cons, List.flatten_cons]
    show (p.2.rows.map (fun r => setCell r "OS" (Val.vStr p.1))).map g ++ _ = _
    rw [List.map_map]
    rfl

theorem getCell_postOf_os {dfs : List (String × DataFrame)}
    (h3 : "OS" ∈ (combinedOf dfs).cols) (r : Row) (lab : String) :
    getCell (postOf dfs (setCell r "OS" (Val.vStr lab))) "OS" = some (Val.vStr lab) := by
  unfold postOf
  rw [getCell_projectRow, if_pos (os_mem_finalCols h3),
    getCell_addWeek_ne (datesOf dfs) _ (by decide), getCell_setCell_self]

/-- Claim C7: the returned rows are, up to the sort, exactly the
post-processed tagged rows of the input datasets, and the row built from a
row of the dataset labelled `p.1` carries OS value `p.1`, whatever OS
value the input row carried. -/
theorem C7_os_overwrite {dfs : List (String × DataFrame)} {t : DataFrame}
    (h : run dfs = Except.ok t) :
    t.rows.Perm ((dfs.map (fun p => p.2.rows.map
        (fun r => postOf dfs (setCell r "OS" (Val.vStr p.1))))).flatten) ∧
    ∀ p ∈ dfs, ∀ r ∈ p.2.rows,
      getCell (postOf dfs (setCell r "OS" (Val.vStr p.1))) "OS" =
        some (Val.vStr p.1) := by
  obtain ⟨hne, h2, h3, ht⟩ := run_ok_elim h
  constructor
  · rw [ht, finalOf_rows_eq]
    have hp : ((sortBy rowLe (combinedOf dfs).rows).map (postOf dfs)).Perm
        ((combinedOf dfs).rows.map (postOf dfs)) :=
      (perm_sortBy rowLe _).map _
    refine hp.trans ?_
    rw [show (combinedOf dfs).rows = concatRows (tagged dfs) from rfl,
      concatRows_tagged_map]
  · intro p hp r hr
    exact getCell_postOf_os h3 r p.1

/-- Witness for C7 at the concrete input `exA`. -/
theorem C7_os_overwrite_witness :
    run exA = Except.ok tA ∧
      (tA.rows.Perm ((exA.map (fun p => p.2.rows.map
          (fun r => postOf exA (setCell r "OS" (Val.vStr p.1))))).flatten) ∧
      ∀ p ∈ exA, ∀ r ∈ p.2.rows,
        getCell (postOf exA (setCell r "OS" (Val.vStr p.1))) "OS" =
          some (Val.vStr p.1)) :=
  ⟨rfl, @C7_os_overwrite exA tA rfl⟩

theorem set_snoc (heap : List DataFrame) (src x : DataFrame) :
    (heap ++ [src]).set heap.length x = heap ++ [x] := by
  induction heap with
  | nil => rfl
  | cons y ys ih =>
    show y :: (ys ++ [src]).set ys.length x = y :: (ys ++ [x])
    rw [ih]

theorem getD_append_lt (heap : List DataFrame) (x : DataFrame) (i : Nat)
    (h : i < heap.length) :
    (heap ++ [x]).getD i emptyFrame = heap.getD i emptyFrame := by
  induction heap generalizing i with
  | nil => simp at h
  | cons y ys ih =>
    cases i with
    | zero => rfl
    | succ j => exact ih j (Nat.lt_of_succ_lt_succ h)

theorem getD_snoc_self (heap : List DataFrame) (x : DataFrame) :
    (heap ++ [x]).getD heap.length emptyFrame = x := by
  induction heap with
  | nil => rfl
  | cons y ys ih => exact ih

theorem heapTagLoop_preserves (dict : List (String × Nat)) :
    ∀ (heap : List DataFrame) (i : Nat), i < heap.length →
      (heapTagLoop heap dict).1.getD i emptyFrame = heap.getD i emptyFrame := by
  induction dict with
  | nil =>
    intro heap i h
    rfl
  | cons p rest ih =>
    intro heap i h
    obtain ⟨name, ref⟩ := p
    simp only [heapTagLoop]
    rw [getD_snoc_self, set_snoc]
    rw [ih (heap ++ [setCol (heap.getD ref emptyFrame) "OS" (Val.vStr name)]) i
      (by rw [List.length_append]; omega)]
    exact getD_append_lt heap _ i h

/-- Claim C9: the pipeline never mutates a caller-supplied frame: in the
explicit-store model every frame the heap held before the call is
unchanged after it, because the tagging loop assigns the OS column on a
fresh copy and every later step builds new frames. -/
theorem C9_no_mutation (heap : List DataFrame) (dict : List (String × Nat))
    (i : Nat) (h : i < heap.length) :
    (runHeap heap dict).1.getD i emptyFrame = heap.getD i emptyFrame := by
  show (heapTagLoop heap dict).1.getD i emptyFrame = _
  exact heapTagLoop_preserves dict heap i h

/-- Witness for C9: the single caller frame of `heap9`, which already
carries an OS column that tagging overwrites on the copy, is identical
after the call. -/
theorem C9_no_mutation_witness :
    0 < heap9.length ∧
      (runHeap heap9 dict9).1.getD 0 emptyFrame = heap9.getD 0 emptyFrame :=
  ⟨by decide, C9_no_mutation heap9 dict9 0 (by decide)⟩

theorem filter_keyNe_projectRow (c0 : String) (cs : List String) (r : Row) :
    List.filter (keyNe c0) (projectRow cs r) =
      projectRow (cs.filter (fun c => !decide (c = c0))) r := by
  induction cs with
  | nil => rfl
  | cons c cs ih =>
    rw [projectRow_cons]
    by_cases hc : c = c0
    · subst hc
      cases h : getCell r c with
      | some v =>
        rw [List.filter_cons, List.filter_cons]
        have h1 : keyNe c (c, v) = false := by simp [keyNe]
        have h2 : (!decide (c = c)) = false := by simp
        rw [h1, h2]
        simp only [Bool.false_eq_true, if_false]
        exact ih
      | none =>
        rw [List.filter_cons]
        have h2 : (!decide (c = c)) = false := by simp
        rw [h2]
        simp only [Bool.false_eq_true, if_false]
        exact ih
    · cases h : getCell r c with
      | some v =>
        rw [List.filter_cons, List.filter_cons]
        have h1 : keyNe c0 (c, v) = true := by simp [keyNe, hc]
        have h2 : (!decide (c = c0)) = true := by simp [hc]
        rw [h1, h2]
        simp only [if_true]
        rw [projectRow_cons, h, ih]
      | none =>
        rw [List.filter_cons]
        have h2 : (!decide (c = c0)) = true := by simp [hc]
        rw [h2]
        simp only [if_true]
        rw [projectRow_cons, h]
        exact ih

theorem projectRow_addWeek (u : List (Option Val)) (cs : List String) (r : Row)
    (hcs : "Week Number" ∉ cs) :
    projectRow cs (addWeek u r) = projectRow cs r := by
  induction cs with
  | nil => rfl
  | cons c cs ih =>
    have hc : c ≠ "Week Number" := by
      intro h
      exact hcs (h ▸ List.mem_cons_self c cs)
    have hih := ih (fun h => hcs (List.mem_cons_of_mem c h))
    rw [projectRow_cons, projectRow_cons, getCell_addWeek_ne u r hc, hih]

theorem projectRow_filter_mem {CS : List String} (cols : List String) (r : Row)
    (hr : ∀ c, (getCell r c).isSome = true → c ∈ CS) :
    projectRow (cols.filter (fun c => decide (c ∈ CS))) r = projectRow cols r := by
  induction cols with
  | nil => rfl
  | cons c cols ih =>
    rw [List.filter_cons]
    by_cases hc : c ∈ CS
    · have hd : decide (c ∈ CS) = true := by simp [hc]
      rw [hd]
      simp only [if_true]
      rw [projectRow_cons, projectRow_cons, ih]
    · have hd : decide (c ∈ CS) = false := by simp [hc]
      rw [hd]
      simp only [Bool.false_eq_true, if_false]
      rw [ih]
      cases h : getCell r c with
      | some v => exact absurd (hr c (by simp [h])) hc
      | none =>
        rw [projectRow_cons, h]

theorem filter_swap_target (CS : List String) :
    (targetColumns.filter (fun c => decide (c ∈ CS))).filter
        (fun c => !decide (c = "Week Number")) =
      (targetColumns.filter (fun c => !decide (c = "Week Number"))).filter
        (fun c => decide (c ∈ CS)) := by
  rw [List.filter_filter, List.filter_filter]
  congr 1
  funext c
  rw [Bool.and_comm]

theorem stripWN_postOf {dfs : List (String × DataFrame)} (r : Row)
    (hr : ∀ c, (getCell r c).isSome = true → c ∈ (withWeekOf dfs).cols) :
    stripWN (postOf dfs r) = canonRow r := by
  unfold stripWN dropCell postOf canonRow
  rw [filter_keyNe_projectRow, finalOf_cols, filter_swap_target]
  have hWN : "Week Number" ∉
      (targetColumns.filter (fun c => !decide (c = "Week Number"))).filter
        (fun c => decide (c ∈ (withWeekOf dfs).cols)) := by
    simp [List.mem_filter]
  rw [projectRow_addWeek _ _ _ hWN]
  exact projectRow_filter_mem _ r hr

theorem getCell_isSome_mem (r : Row) (c : String) (h : (getCell r c).isSome = true) :
    ∃ v, (c, v) ∈ r := by
  induction r with
  | nil => simp [getCell] at h
  | cons p r ih =>
    obtain ⟨a, b⟩ := p
    by_cases hc : a = c
    · subst hc
      exact ⟨b, List.mem_cons_self _ _⟩
    · simp only [getCell, hc, if_false] at h
      rcases ih h with ⟨v, hv⟩
      exact ⟨v, List.mem_cons_of_mem _ hv⟩

theorem key_mem_setCell {r0 : Row} {c0 c : String} {v w : Val}
    (h : (c, w) ∈ setCell r0 c0 v) : (∃ w2, (c, w2) ∈ r0) ∨ c = c0 := by
  unfold setCell at h
  rcases List.mem_append.mp h with h1 | h1
  · exact Or.inl ⟨w, (List.mem_filter.mp h1).1⟩
  · have h2 := List.mem_singleton.mp h1
    injection h2 with hc hv
    exact Or.inr hc

theorem mem_concatRows {r : Row} {dfl : List DataFrame} :
    r ∈ concatRows dfl ↔ ∃ df, df ∈ dfl ∧ r ∈ df.rows := by
  induction dfl with
  | nil => simp [concatRows]
  | cons df dfl ih =>
    show r ∈ df.rows ++ concatRows dfl ↔ _
    rw [List.mem_append, ih]
    constructor
    · rintro (h | ⟨df2, h2, h3⟩)
      · exact ⟨df, List.mem_cons_self _ _, h⟩
      · exact ⟨df2, List.mem_cons_of_mem _ h2, h3⟩
    · rintro ⟨df2, h2, h3⟩
      rcases List.mem_cons.mp h2 with h4 | h4
      · rw [h4] at h3
        exact Or.inl h3
      · exact Or.inr ⟨df2, h4, h3⟩

theorem combined_present_keys {dfs : List (String × DataFrame)}
    (hwf : ∀ p ∈ dfs, DataFrame.WF p.2) :
    ∀ r ∈ (combinedOf dfs).rows, ∀ c, (getCell r c).isSome = true →
      c ∈ (withWeekOf dfs).cols := by
  intro r hr c hc
  have hr2 : r ∈ concatRows (tagged dfs) := hr
  rcases mem_concatRows.mp hr2 with ⟨df, hdf, hrdf⟩
  rcases List.mem_map.mp hdf with ⟨p, hp, hpe⟩
  rw [← hpe] at hrdf
  rcases List.mem_map.mp hrdf with ⟨r0, hr0, hre⟩
  rw [← hre] at hc
  obtain ⟨w, hw⟩ := getCell_isSome_mem _ c hc
  rcases key_mem_setCell hw with ⟨w2, hw2⟩ | hco
  · have hca : c ∈ p.2.cols := hwf p hp r0 hr0 (c, w2) hw2
    apply (mem_cols_withWeek dfs c).mpr
    apply Or.inl
    show c ∈ unionCols (tagged dfs)
    rw [mem_unionCols]
    exact ⟨setCol p.2 "OS" (Val.vStr p.1), List.mem_map.mpr ⟨p, hp, rfl⟩,
      (mem_cols_setCol p.2 "OS" (Val.vStr p.1) c).mpr (Or.inl hca)⟩
  · rw [hco]
    exact (mem_cols_withWeek dfs "OS").mpr
      (Or.inl (os_mem_combined (List.ne_nil_of_mem hp)))

theorem strip_final_perm (dfs : List (String × DataFrame))
    (hwf : ∀ p ∈ dfs, DataFrame.WF p.2) :
    ((finalOf dfs).rows.map stripWN).Perm ((combinedOf dfs).rows.map canonRow) := by
  rw [finalOf_rows_eq, List.map_map]
  have hcong : (sortBy rowLe (combinedOf dfs).rows).map (stripWN ∘ postOf dfs) =
      (sortBy rowLe (combinedOf dfs).rows).map canonRow := by
    apply List.map_congr_left
    intro r hr
    have hrc : r ∈ (combinedOf dfs).rows := (perm_sortBy rowLe _).mem_iff.mp hr
    exact stripWN_postOf r (combined_present_keys hwf r hrc)
  rw [hcong]
  exact (perm_sortBy rowLe _).map canonRow

theorem aw_mem_combined {dfs : List (String × DataFrame)} {p : String × DataFrame}
    (hp : p ∈ dfs) (hAW : "Acquisition Week" ∈ p.2.cols) :
    "Acquisition Week" ∈ (combinedOf dfs).cols := by
  show _ ∈ unionCols (tagged dfs)
  rw [mem_unionCols]
  exact ⟨setCol p.2 "OS" (Val.vStr p.1), List.mem_map.mpr ⟨p, hp, rfl⟩,
    (mem_cols_setCol p.2 "OS" (Val.vStr p.1) _).mpr (Or.inl hAW)⟩

/-- Counterexample to Claim C8 as stated: with one later date in `a8` and
one earlier date in `b8`, the joint merge ranks the `a8` row as Week 2
while the separate merge ranks it Week 1, so the joint result contains a
row the concatenated-and-resorted separate results do not contain at all,
although no two rows tie on date and label. -/
theorem C8_counterexample :
    [("Acquisition Week", Val.vInt 2), ("Week Number", Val.vStr "Week 2"),
        ("OS", Val.vStr "A")] ∈ okRows (run [("A", a8), ("B", b8)]) ∧
    [("Acquisition Week", Val.vInt 2), ("Week Number", Val.vStr "Week 2"),
        ("OS", Val.vStr "A")] ∉
      sortBy rowLe (okRows (run [("A", a8)]) ++ okRows (run [("B", b8)])) :=
  ⟨by decide, by decide⟩

/-- Claim C8 (amended): once the Week Number column, whose ranks each
merge computes from its own date set, is discounted, merging jointly and
merging separately then concatenating and re-sorting agree: the stripped
row multisets are equal and both row lists are sorted by the date and
label key, so rows can differ in position only within key ties. -/
theorem C8_separate_merge (A B : String) (a b : DataFrame)
    (hwa : a.WF) (hwb : b.WF)
    (ha : "Acquisition Week" ∈ a.cols) (hb : "Acquisition Week" ∈ b.cols) :
    ((okRows (run [(A, a), (B, b)])).map stripWN).Perm
      ((sortBy rowLe (okRows (run [(A, a)]) ++ okRows (run [(B, b)]))).map stripWN) ∧
    ((okRows (run [(A, a), (B, b)])).map stripWN).Pairwise
      (fun r1 r2 => rowLe r1 r2 = true) ∧
    ((sortBy rowLe (okRows (run [(A, a)]) ++ okRows (run [(B, b)]))).map stripWN).Pairwise
      (fun r1 r2 => rowLe r1 r2 = true) := by
  have hneJ : ([(A, a), (B, b)] : List (String × DataFrame)) ≠ [] := by simp
  have hmemJa : ((A, a) : String × DataFrame) ∈ [(A, a), (B, b)] := by simp
  have hAWJ : "Acquisition Week" ∈ (combinedOf [(A, a), (B, b)]).cols :=
    aw_mem_combined hmemJa ha
  have hAWA : "Acquisition Week" ∈ (combinedOf [(A, a)]).cols :=
    @aw_mem_combined [(A, a)] (A, a) (by simp) ha
  have hAWB : "Acquisition Week" ∈ (combinedOf [(B, b)]).cols :=
    @aw_mem_combined [(B, b)] (B, b) (by simp) hb
  have hokJ : okRows (run [(A, a), (B, b)]) = (finalOf [(A, a), (B, b)]).rows := by
    rw [run_ok_intro hneJ hAWJ]
    rfl
  have hokA : okRows (run [(A, a)]) = (finalOf [(A, a)]).rows := by
    rw [run_ok_intro (by simp) hAWA]
    rfl
  have hokB : okRows (run [(B, b)]) = (finalOf [(B, b)]).rows := by
    rw [run_ok_intro (by simp) hAWB]
    rfl
  have hwfJ : ∀ p ∈ [(A, a), (B, b)], DataFrame.WF p.2 := by
    intro p hp
    rcases List.mem_cons.mp hp with h | h
    · rw [h]
      exact hwa
    · rw [List.mem_singleton.mp h]
      exact hwb
  have hwfA : ∀ p ∈ [(A, a)], DataFrame.WF p.2 := by
    intro p hp
    rw [List.mem_singleton.mp hp]
    exact hwa
  have hwfB : ∀ p ∈ [(B, b)], DataFrame.WF p.2 := by
    intro p hp
    rw [List.mem_singleton.mp hp]
    exact hwb
  rw [hokJ, hokA, hokB]
  have e1 : ((finalOf [(A, a), (B, b)]).rows.map stripWN).Perm
      ((combinedOf [(A, a), (B, b)]).rows.map canonRow) := strip_final_perm _ hwfJ
  have e2 : (combinedOf [(A, a), (B, b)]).rows.map canonRow =
      ((combinedOf [(A, a)]).rows.map canonRow) ++
        ((combinedOf [(B, b)]).rows.map canonRow) := by
    simp [combinedOf, concatFrames, concatRows, tagged]
  have e5 : ((finalOf [(A, a)]).rows.map stripWN).Perm
      ((combinedOf [(A, a)]).rows.map canonRow) := strip_final_perm _ hwfA
  have e7 : ((finalOf [(B, b)]).rows.map stripWN).Perm
      ((combinedOf [(B, b)]).rows.map canonRow) := strip_final_perm _ hwfB
  refine ⟨?_, ?_, ?_⟩
  · have e3 : ((sortBy rowLe ((finalOf [(A, a)]).rows ++ (finalOf [(B, b)]).rows)).map
        stripWN).Perm
        (((finalOf [(A, a)]).rows ++ (finalOf [(B, b)]).rows).map stripWN) :=
      (perm_sortBy rowLe _).map stripWN
    rw [List.map_append] at e3
    have e9 := e5.append e7
    rw [e2] at e1
    exact e1.trans ((e3.trans e9).symm)
  · rw [finalOf_rows_eq, List.map_map]
    have hpres : ∀ r1 r2 : Row, rowLe r1 r2 = true →
        rowLe ((stripWN ∘ postOf [(A, a), (B, b)]) r1)
          ((stripWN ∘ postOf [(A, a), (B, b)]) r2) = true := by
      intro r1 r2 h12
      show rowLe (stripWN (postOf _ r1)) (stripWN (postOf _ r2)) = true
      unfold rowLe
      rw [rowKey_stripWN, rowKey_stripWN, rowKey_postOf hAWJ (os_mem_combined hneJ),
        rowKey_postOf hAWJ (os_mem_combined hneJ)]
      exact h12
    exact List.Pairwise.map _ hpres (sorted_sortBy rowLe_totalB rowLe_transB _)
  · have hpres2 : ∀ r1 r2 : Row, rowLe r1 r2 = true →
        rowLe (stripWN r1) (stripWN r2) = true := by
      intro r1 r2 h12
      unfold rowLe
      rw [rowKey_stripWN, rowKey_stripWN]
      exact h12
    exact List.Pairwise.map _ hpres2 (sorted_sortBy rowLe_totalB rowLe_transB _)

/-- Witness for C8 (amended) at the concrete datasets `a8` and `b8`. -/
theorem C8_separate_merge_witness :
    (a8.WF ∧ b8.WF ∧ "Acquisition Week" ∈ a8.cols ∧ "Acquisition Week" ∈ b8.cols) ∧
    (((okRows (run [("A", a8), ("B", b8)])).map stripWN).Perm
      ((sortBy rowLe (okRows (run [("A", a8)]) ++ okRows (run [("B", b8)]))).map stripWN) ∧
    ((okRows (run [("A", a8), ("B", b8)])).map stripWN).Pairwise
      (fun r1 r2 => rowLe r1 r2 = true) ∧
    ((sortBy rowLe (okRows (run [("A", a8)]) ++ okRows (run [("B", b8)]))).map
        stripWN).Pairwise (fun r1 r2 => rowLe r1 r2 = true)) :=
  ⟨⟨by decide, by decide, by decide, by decide⟩,
    C8_separate_merge "A" "B" a8 b8 (by decide) (by decide) (by decide) (by decide)⟩
